import Mathlib

/-!
Verification of the resilience layer of Ludus-FastMCP: the async LRU/TTL
cache (`src/ludus_mcp/utils/cache.py`), the sliding-window rate limiter
(`src/ludus_mcp/utils/rate_limit.py`) and the retry-with-backoff wrappers
(`src/ludus_mcp/utils/retry.py`).

Timestamps, TTLs, window durations and delays are modelled as rationals.
The Python dict of the cache is modelled as an association list in
insertion order (as CPython dicts iterate); the rate limiter's deque is a
list of timestamps, oldest first.  `compute_fn` and the wrapped retry
operation are modelled by their outcomes (`Except`), so "the function was
invoked" is observable as the outcome entering the result.
-/

namespace LudusMCP

/-! ### Cache: `AsyncLRUCache` from `src/ludus_mcp/utils/cache.py` -/

/-- State of an `AsyncLRUCache`: `max_size`, `ttl` (seconds), the dict
`cache` mapping keys to `(value, created_at)` pairs in insertion order,
and the `_hits` / `_misses` counters. -/
structure CacheState (K V : Type) where
  maxSize : Nat
  ttl : ℚ
  cache : List (K × V × ℚ)
  hits : Nat
  misses : Nat
deriving DecidableEq

variable {K V E : Type} [DecidableEq K]

/-- `key in self.cache` / `self.cache[key]`: first binding of the key. -/
def lookup : List (K × V × ℚ) → K → Option (V × ℚ)
  | [], _ => none
  | (k, v, t) :: rest, key => if k = key then some (v, t) else lookup rest key

/-- `del self.cache[key]`: remove the binding of the key (dict keys are
unique, so removing the first occurrence is removal of the binding). -/
def eraseKey : List (K × V × ℚ) → K → List (K × V × ℚ)
  | [], _ => []
  | (k, v, t) :: rest, key =>
    if k = key then rest else (k, v, t) :: eraseKey rest key

/-- `self.cache[key] = (value, time)`: update in place if present,
append otherwise (CPython dict semantics). -/
def setKey : List (K × V × ℚ) → K → V × ℚ → List (K × V × ℚ)
  | [], key, p => [(key, p.1, p.2)]
  | (k, v, t) :: rest, key, p =>
    if k = key then (key, p.1, p.2) :: rest else (k, v, t) :: setKey rest key p

/-- `min(self.cache.keys(), key=lambda k: self.cache[k][1])`: the entry
with the smallest timestamp; Python's `min` keeps the first one in
iteration (insertion) order on ties, hence the strict comparison. -/
def oldestEntry : List (K × V × ℚ) → Option (K × V × ℚ)
  | [] => none
  | e :: rest => some (rest.foldl (fun best x => if x.2.2 < best.2.2 then x else best) e)

/-- `del self.cache[oldest_key]` after computing the oldest key. -/
def evictOldest (l : List (K × V × ℚ)) : List (K × V × ℚ) :=
  match oldestEntry l with
  | none => l
  | some e => eraseKey l e.1

/-- The part of `get_or_set` after the miss counter is incremented:
run `func`, and on success insert the result at time `t2` and evict the
oldest entry when the dict exceeds `max_size`.  An error from `func`
propagates with no further state change. -/
def missPath (s : CacheState K V) (key : K) (t2 : ℚ) (compute : Except E V) :
    Except E V × CacheState K V :=
  match compute with
  | Except.error e => (Except.error e, s)
  | Except.ok v =>
    let c1 := setKey s.cache key (v, t2)
    let c2 := if s.maxSize < c1.length then evictOldest c1 else c1
    (Except.ok v, { s with cache := c2 })

/-- `AsyncLRUCache.get_or_set`: `t1` is `datetime.now()` at lookup time,
`t2` is `datetime.now()` at insertion time (the lock is released while
`func` runs, so the two readings differ).  A hit (entry present and
`now - cached_time < ttl`) returns the cached value and bumps `_hits`;
otherwise the expired binding (if any) is deleted, `_misses` is bumped
and the miss path runs. -/
def get_or_set (s : CacheState K V) (key : K) (t1 t2 : ℚ) (compute : Except E V) :
    Except E V × CacheState K V :=
  match lookup s.cache key with
  | some (v, ct) =>
    if t1 - ct < s.ttl then
      (Except.ok v, { s with hits := s.hits + 1 })
    else
      missPath { s with cache := eraseKey s.cache key, misses := s.misses + 1 } key t2 compute
  | none =>
    missPath { s with misses := s.misses + 1 } key t2 compute

/-- `AsyncLRUCache.invalidate`: clear everything on `None`, otherwise
delete the one binding if present. -/
def invalidate (s : CacheState K V) (key : Option K) : CacheState K V :=
  match key with
  | none => { s with cache := [] }
  | some k => { s with cache := eraseKey s.cache k }

/-- A fresh cache as built by `__init__`. -/
def emptyCache (maxSize : Nat) (ttl : ℚ) : CacheState K V :=
  { maxSize := maxSize, ttl := ttl, cache := [], hits := 0, misses := 0 }

/-- Insert a sequence of `(key, value, time)` triples via `get_or_set`
(the compute function succeeding with the given value at the given time). -/
def insertAll (s : CacheState K V) : List (K × V × ℚ) → CacheState K V
  | [] => s
  | (k, v, t) :: rest =>
    insertAll (get_or_set (E := Unit) s k t t (Except.ok v)).2 rest

/-- Python's `/`, which raises `ZeroDivisionError` on a zero divisor. -/
def pydiv (a b : ℚ) : Option ℚ :=
  if b = 0 then none else some (a / b)

/-- Python's `round` to the nearest integer: round-half-to-even. -/
def pyroundInt (q : ℚ) : ℤ :=
  let f : ℤ := Int.floor q
  let r : ℚ := q - f
  if r < 1/2 then f
  else if 1/2 < r then f + 1
  else if 2 ∣ f then f else f + 1

/-- Python's `round(x, 2)`. -/
def round2 (q : ℚ) : ℚ :=
  (pyroundInt (q * 100) : ℚ) / 100

/-- The dictionary returned by `AsyncLRUCache.get_stats`, one field per key. -/
structure CacheStats where
  size : Nat
  max_size : Nat
  hits : Nat
  misses : Nat
  total_requests : Nat
  hit_rate_percent : ℚ
  ttl_seconds : ℚ
deriving DecidableEq

/-- `AsyncLRUCache.get_stats`: `hit_rate = (hits / total * 100) if total > 0
else 0`, then `round(hit_rate, 2)`.  The division is Python's (partial)
division, so the result is `none` exactly when the code would raise
`ZeroDivisionError`. -/
def get_stats (s : CacheState K V) : Option CacheStats :=
  let total := s.hits + s.misses
  let rate? : Option ℚ :=
    if 0 < total then (pydiv (s.hits : ℚ) (total : ℚ)).map (· * 100) else some 0
  rate?.map fun rate =>
    { size := s.cache.length
      max_size := s.maxSize
      hits := s.hits
      misses := s.misses
      total_requests := total
      hit_rate_percent := round2 rate
      ttl_seconds := s.ttl }

/-! ### Rate limiter: `RateLimiter` from `src/ludus_mcp/utils/rate_limit.py` -/

/-- Configuration of a `RateLimiter`: `max_requests` and the window
duration in seconds. -/
structure RateConfig where
  maxRequests : Nat
  window : ℚ
deriving DecidableEq

/-- `while self.requests and (now - self.requests[0]) > self.window:
self.requests.popleft()` — drop the timestamps at the front that fell
out of the window (note the strict `>`). -/
def purge (w now : ℚ) (q : List ℚ) : List ℚ :=
  q.dropWhile (fun t => decide (w < now - t))

/-- One pass of the body of `RateLimiter.acquire` at clock reading `now`:
purge, then either record `now` and succeed (`some` of the new deque), or
report that the caller must sleep and re-check (`none`).  On `none` the
code sleeps until `requests[0] + window` and recurses. -/
def acquireStep (L : RateConfig) (now : ℚ) (q : List ℚ) : Option (List ℚ) :=
  let q1 := purge L.window now q
  if q1.length < L.maxRequests then some (q1 ++ [now]) else none

/-- A whole `acquire()` call by a lone caller: `checks` are the successive
readings of `datetime.now()`, one per pass of the body (the sleep between
two passes is reflected in the growth of the readings).  Returns the
admission time and the deque after it, or `none` when the call has not
completed within the given readings. -/
def acquireRun (L : RateConfig) (q : List ℚ) : List ℚ → Option (ℚ × List ℚ)
  | [] => none
  | now :: rest =>
    match acquireStep L now q with
    | some q2 => some (now, q2)
    | none => acquireRun L (purge L.window now q) rest

/-- A sequence of completed `acquire()` calls, given the clock readings at
which each call was admitted (its final pass): each reading must find the
purged deque below `max_requests`, and the admission is appended.  Returns
the final deque, or `none` when some reading could not have been an
admission time. -/
def runAdmissions (L : RateConfig) (q : List ℚ) : List ℚ → Option (List ℚ)
  | [] => some q
  | now :: rest =>
    match acquireStep L now q with
    | some q2 => runAdmissions L q2 rest
    | none => none

/-! ### Retry: `async_retry` and `RetryContext` from
`src/ludus_mcp/utils/retry.py` -/

/-- Configuration shared by `async_retry` and `RetryContext`. -/
structure RetryConfig where
  maxAttempts : Nat
  backoffFactor : ℚ
  initialDelay : ℚ
  maxDelay : ℚ
deriving DecidableEq

/-- `min(initial_delay * (backoff_factor**attempt), max_delay)` for a
0-based attempt index. -/
def delayFor (cfg : RetryConfig) (attempt : Nat) : ℚ :=
  min (cfg.initialDelay * cfg.backoffFactor ^ attempt) cfg.maxDelay

deriving instance DecidableEq for Except

/-- Observable outcome of a retry-wrapped call: the final result
(`none` models the decorator's fall-through `return None` when the loop
body never runs), the number of invocations of the wrapped operation, and
the successive sleeps, in order. -/
structure RetryResult (E V : Type) where
  result : Option (Except E V)
  attempts : Nat
  delays : List ℚ
deriving DecidableEq

/-- The loop of the `async_retry` wrapper, from attempt index `a` with
`r = max_attempts - a` iterations left.  `op i` is the outcome of the
`i`-th invocation of the wrapped function; `retryable e` models
`isinstance(e, exceptions)` (a non-retryable error is not caught and
propagates at once; a retryable one at the last attempt is re-raised). -/
def retryAux (cfg : RetryConfig) (retryable : E → Bool) (op : Nat → Except E V) :
    Nat → Nat → RetryResult E V
  | _, 0 => ⟨none, 0, []⟩
  | a, m + 1 =>
    match op a with
    | Except.ok v => ⟨some (Except.ok v), 1, []⟩
    | Except.error e =>
      if retryable e then
        if m = 0 then ⟨some (Except.error e), 1, []⟩
        else
          let o := retryAux cfg retryable op (a + 1) m
          ⟨o.result, o.attempts + 1, delayFor cfg a :: o.delays⟩
      else ⟨some (Except.error e), 1, []⟩

/-- The `async_retry(...)`-decorated call: the loop with
`attempt in range(max_attempts)`. -/
def async_retry (cfg : RetryConfig) (retryable : E → Bool) (op : Nat → Except E V) :
    RetryResult E V :=
  retryAux cfg retryable op 0 cfg.maxAttempts

/-- `RetryContext` driven by the canonical loop
`while True: async with retry: return await op()`: `__aenter__` bumps the
1-based attempt counter, the body runs `op`, and `__aexit__` either
propagates (success passes through; non-retryable errors and errors at
`attempt >= max_attempts` re-raise) or sleeps
`min(initial_delay * backoff_factor**(attempt-1), max_delay)` and
suppresses, upon which the loop re-enters.  `fuel` bounds the iterations;
`attempt` is the counter value before `__aenter__`. -/
def retryCtxAux (cfg : RetryConfig) (retryable : E → Bool) (op : Nat → Except E V) :
    Nat → Nat → RetryResult E V
  | _, 0 => ⟨none, 0, []⟩
  | attempt, f + 1 =>
    let a := attempt + 1
    match op (a - 1) with
    | Except.ok v => ⟨some (Except.ok v), 1, []⟩
    | Except.error e =>
      if retryable e then
        if cfg.maxAttempts ≤ a then ⟨some (Except.error e), 1, []⟩
        else
          let o := retryCtxAux cfg retryable op a f
          ⟨o.result, o.attempts + 1, delayFor cfg (a - 1) :: o.delays⟩
      else ⟨some (Except.error e), 1, []⟩

/-- A full run of the `RetryContext` loop: `max_attempts + 1` iterations
of fuel always suffice, because the context suppresses (and so loops) only
while `attempt < max_attempts` and the counter grows by one per entry. -/
def retryCtxRun (cfg : RetryConfig) (retryable : E → Bool) (op : Nat → Except E V) :
    RetryResult E V :=
  retryCtxAux cfg retryable op 0 (cfg.maxAttempts + 1)

/-! ### Helper lemmas -/

theorem eraseKey_of_lookup_none {l : List (K × V × ℚ)} {k : K}
    (h : lookup l k = none) : eraseKey l k = l := by
  induction l with
  | nil => rfl
  | cons e rest ih =>
    obtain ⟨k0, v0, t0⟩ := e
    by_cases hk : k0 = k
    · simp [lookup, hk] at h
    · simp only [lookup, hk, if_neg] at h
      simp [eraseKey, hk, ih h]

theorem delays_cons (cfg : RetryConfig) (a k : Nat) :
    delayFor cfg a :: (List.range k).map (fun i => delayFor cfg (a + 1 + i)) =
      (List.range (k + 1)).map (fun i => delayFor cfg (a + i)) := by
  rw [List.range_succ_eq_map, List.map_cons, List.map_map, Nat.add_zero]
  congr 1
  refine List.map_congr_left (fun i _ => ?_)
  simp only [Function.comp_apply]
  exact congrArg (delayFor cfg) (by omega)

theorem retryAux_all_fail (cfg : RetryConfig) (retryable : E → Bool)
    (op : Nat → Except E V) (err : Nat → E)
    (hop : ∀ i, op i = Except.error (err i))
    (hr : ∀ i, retryable (err i) = true) :
    ∀ m a, 1 ≤ m →
      retryAux cfg retryable op a m =
        ⟨some (Except.error (err (a + m - 1))), m,
          (List.range (m - 1)).map (fun i => delayFor cfg (a + i))⟩ := by
  intro m
  induction m with
  | zero => omega
  | succ m ih =>
    intro a _
    by_cases hm : m = 0
    · subst hm
      simp [retryAux, hop a, hr a]
    · have h1 : 1 ≤ m := Nat.one_le_iff_ne_zero.mpr hm
      have hrec := ih (a + 1) h1
      have hidx : a + 1 + m - 1 = a + (m + 1) - 1 := by omega
      have hk : m - 1 + 1 = m := by omega
      simp only [retryAux, hop a, hr a, if_neg hm, ite_true, hrec, hidx,
        Nat.add_sub_cancel]
      rw [← hk, delays_cons]
      simp only [hk]

theorem retryAux_fail_then_ok (cfg : RetryConfig) (retryable : E → Bool)
    (op : Nat → Except E V) (err : Nat → E) (v : V) :
    ∀ (k a : Nat), (∀ i, i < k → op (a + i) = Except.error (err (a + i))) →
      (∀ i, i < k → retryable (err (a + i)) = true) →
      op (a + k) = Except.ok v → a + k < cfg.maxAttempts →
      retryAux cfg retryable op a (cfg.maxAttempts - a) =
        ⟨some (Except.ok v), k + 1,
          (List.range k).map (fun i => delayFor cfg (a + i))⟩ := by
  intro k
  induction k with
  | zero =>
    intro a _ _ hok hlt
    obtain ⟨m, hm⟩ : ∃ m, cfg.maxAttempts - a = m + 1 := ⟨cfg.maxAttempts - a - 1, by omega⟩
    rw [hm]
    simp only [Nat.add_zero] at hok
    simp [retryAux, hok]
  | succ k ih =>
    intro a hop hr hok hlt
    obtain ⟨m, hm⟩ : ∃ m, cfg.maxAttempts - a = m + 1 := ⟨cfg.maxAttempts - a - 1, by omega⟩
    have hm1 : m ≠ 0 := by omega
    have hopa : op a = Except.error (err a) := by
      have := hop 0 (Nat.succ_pos k)
      simpa using this
    have hra : retryable (err a) = true := by
      have := hr 0 (Nat.succ_pos k)
      simpa using this
    have hrec : retryAux cfg retryable op (a + 1) m =
        ⟨some (Except.ok v), k + 1,
          (List.range k).map (fun i => delayFor cfg (a + 1 + i))⟩ := by
      have hm2 : m = cfg.maxAttempts - (a + 1) := by omega
      rw [hm2]
      refine ih (a + 1) (fun i hi => ?_) (fun i hi => ?_) ?_ (by omega)
      · have := hop (i + 1) (by omega)
        rw [show a + 1 + i = a + (i + 1) by omega]
        exact this
      · have := hr (i + 1) (by omega)
        rw [show a + 1 + i = a + (i + 1) by omega]
        exact this
      · rw [show a + 1 + k = a + (k + 1) by omega]
        exact hok
    rw [hm]
    simp only [retryAux, hopa, hra, if_neg hm1, ite_true, hrec]
    rw [delays_cons]

theorem listRangeMapSum (f : Nat → ℚ) (k : Nat) :
    (((List.range k).map f).sum : ℚ) = ∑ i ∈ Finset.range k, f i := by
  induction k with
  | zero => simp
  | succ k ih =>
    rw [List.range_succ, Finset.sum_range_succ, List.map_append, List.sum_append, ih]
    simp

theorem retryAux_eq_ctxAux (cfg : RetryConfig) (retryable : E → Bool)
    (op : Nat → Except E V) :
    ∀ (r a : Nat), a + r = cfg.maxAttempts → 1 ≤ r →
      retryAux cfg retryable op a r = retryCtxAux cfg retryable op a (r + 1) := by
  intro r
  induction r with
  | zero => omega
  | succ r ih =>
    intro a ha _
    by_cases hr0 : r = 0
    · subst hr0
      have hmax : cfg.maxAttempts = a + 1 := by omega
      cases hopa : op a with
      | ok v => simp [retryAux, retryCtxAux, hopa]
      | error e =>
        cases hre : retryable e with
        | false => simp [retryAux, retryCtxAux, hopa, hre]
        | true => simp [retryAux, retryCtxAux, hopa, hre, hmax]
    · have h1 : 1 ≤ r := Nat.one_le_iff_ne_zero.mpr hr0
      have hlt : ¬ cfg.maxAttempts ≤ a + 1 := by omega
      cases hopa : op a with
      | ok v => simp [retryAux, retryCtxAux, hopa]
      | error e =>
        cases hre : retryable e with
        | false => simp [retryAux, retryCtxAux, hopa, hre]
        | true =>
          have hrec := ih (a + 1) (by omega) h1
          simp only [retryAux, retryCtxAux, hopa, hre, if_pos, if_neg hr0,
            if_neg hlt, ite_true, Nat.add_sub_cancel, hrec]

theorem lookup_eq_none_of_not_mem {l : List (K × V × ℚ)} {k : K}
    (h : ¬ k ∈ l.map (·.1)) : lookup l k = none := by
  induction l with
  | nil => rfl
  | cons e rest ih =>
    obtain ⟨k0, v0, t0⟩ := e
    simp only [List.map_cons, List.mem_cons] at h
    push_neg at h
    have hne : ¬ k0 = k := fun hk => h.1 hk.symm
    simp only [lookup, if_neg hne, ih h.2]

theorem setKey_append_of_not_mem {l : List (K × V × ℚ)} {k : K} (p : V × ℚ)
    (h : ¬ k ∈ l.map (·.1)) : setKey l k p = l ++ [(k, p.1, p.2)] := by
  induction l with
  | nil => rfl
  | cons e rest ih =>
    obtain ⟨k0, v0, t0⟩ := e
    simp only [List.map_cons, List.mem_cons] at h
    push_neg at h
    have hne : ¬ k0 = k := fun hk => h.1 hk.symm
    simp only [setKey, if_neg hne, ih h.2, List.cons_append]

theorem eraseKey_length_le (l : List (K × V × ℚ)) (k : K) :
    (eraseKey l k).length ≤ l.length := by
  induction l with
  | nil => simp [eraseKey]
  | cons e rest ih =>
    obtain ⟨k0, v0, t0⟩ := e
    by_cases hk : k0 = k
    · simp [eraseKey, hk]
    · simp only [eraseKey, if_neg hk, List.length_cons]
      omega

theorem eraseKey_length_of_mem {l : List (K × V × ℚ)} {k : K}
    (h : k ∈ l.map (·.1)) : (eraseKey l k).length + 1 = l.length := by
  induction l with
  | nil => simp at h
  | cons e rest ih =>
    obtain ⟨k0, v0, t0⟩ := e
    by_cases hk : k0 = k
    · simp [eraseKey, hk]
    · simp only [List.map_cons, List.mem_cons] at h
      have hmem : k ∈ rest.map (·.1) := by
        rcases h with h | h
        · exact absurd h.symm hk
        · exact h
      simp only [eraseKey, if_neg hk, List.length_cons, ih hmem]

theorem setKey_length_le (l : List (K × V × ℚ)) (k : K) (p : V × ℚ) :
    (setKey l k p).length ≤ l.length + 1 := by
  induction l with
  | nil => simp [setKey]
  | cons e rest ih =>
    obtain ⟨k0, v0, t0⟩ := e
    by_cases hk : k0 = k
    · simp [setKey, hk]
    · simp only [setKey, if_neg hk, List.length_cons]
      omega

omit [DecidableEq K] in
theorem foldl_pick_mem (es : List (K × V × ℚ)) :
    ∀ e, es.foldl (fun best x => if x.2.2 < best.2.2 then x else best) e ∈ e :: es := by
  induction es with
  | nil => intro e; simp
  | cons x es ih =>
    intro e
    simp only [List.foldl_cons]
    by_cases hx : x.2.2 < e.2.2
    · rw [if_pos hx]
      rcases List.mem_cons.mp (ih x) with h | h
      · exact List.mem_cons.mpr (Or.inr (List.mem_cons.mpr (Or.inl h)))
      · exact List.mem_cons.mpr (Or.inr (List.mem_cons.mpr (Or.inr h)))
    · rw [if_neg hx]
      rcases List.mem_cons.mp (ih e) with h | h
      · exact List.mem_cons.mpr (Or.inl h)
      · exact List.mem_cons.mpr (Or.inr (List.mem_cons.mpr (Or.inr h)))

omit [DecidableEq K] in
theorem oldestEntry_mem {l : List (K × V × ℚ)} {e : K × V × ℚ}
    (h : oldestEntry l = some e) : e ∈ l := by
  cases l with
  | nil => simp [oldestEntry] at h
  | cons x rest =>
    simp only [oldestEntry, Option.some.injEq] at h
    rw [← h]
    exact foldl_pick_mem rest x

omit [DecidableEq K] in
theorem foldl_pick_of_min (es : List (K × V × ℚ)) (e : K × V × ℚ)
    (h : ∀ x ∈ es, ¬ x.2.2 < e.2.2) :
    es.foldl (fun best x => if x.2.2 < best.2.2 then x else best) e = e := by
  induction es with
  | nil => rfl
  | cons x es ih =>
    simp only [List.foldl_cons, if_neg (h x (List.mem_cons_self x es))]
    exact ih (fun y hy => h y (List.mem_cons_of_mem x hy))

omit [DecidableEq K] in
theorem oldestEntry_head_of_sorted (e : K × V × ℚ) (es : List (K × V × ℚ))
    (h : List.Pairwise (fun a b : K × V × ℚ => a.2.2 ≤ b.2.2) (e :: es)) :
    oldestEntry (e :: es) = some e := by
  simp only [oldestEntry, Option.some.injEq]
  exact foldl_pick_of_min es e
    (fun x hx => not_lt.mpr ((List.pairwise_cons.mp h).1 x hx))

theorem evictOldest_length {l : List (K × V × ℚ)} (h : l ≠ []) :
    (evictOldest l).length + 1 = l.length := by
  cases hl : oldestEntry l with
  | none =>
    cases l with
    | nil => exact absurd rfl h
    | cons x rest => simp [oldestEntry] at hl
  | some e =>
    have hmem : e.1 ∈ l.map (·.1) := List.mem_map_of_mem _ (oldestEntry_mem hl)
    simp only [evictOldest, hl]
    exact eraseKey_length_of_mem hmem

theorem get_or_set_capacity (s : CacheState K V) (key : K) (t1 t2 : ℚ)
    (c : Except E V) (hle : s.cache.length ≤ s.maxSize) :
    ((get_or_set s key t1 t2 c).2).cache.length ≤ s.maxSize := by
  have hmiss : ∀ (s2 : CacheState K V), s2.cache.length ≤ s.maxSize →
      s2.maxSize = s.maxSize → ((missPath s2 key t2 c).2).cache.length ≤ s.maxSize := by
    intro s2 h2 hmax
    cases c with
    | error e => exact h2
    | ok v =>
      simp only [missPath]
      by_cases hover : s2.maxSize < (setKey s2.cache key (v, t2)).length
      · simp only [if_pos hover]
        have hne : setKey s2.cache key (v, t2) ≠ [] := by
          intro hnil
          rw [hnil] at hover
          simp at hover
        have := evictOldest_length hne
        have := setKey_length_le s2.cache key (v, t2)
        omega
      · simp only [if_neg hover]
        omega
  simp only [get_or_set]
  cases hk : lookup s.cache key with
  | none => exact hmiss _ hle rfl
  | some p =>
    obtain ⟨v, ct⟩ := p
    by_cases hfresh : t1 - ct < s.ttl
    · simp only [if_pos hfresh]
      exact hle
    · simp only [if_neg hfresh]
      exact hmiss _ (le_trans (eraseKey_length_le s.cache key) hle) rfl

theorem invalidate_capacity (s : CacheState K V) (okey : Option K)
    (hle : s.cache.length ≤ s.maxSize) :
    (invalidate s okey).cache.length ≤ s.maxSize := by
  cases okey with
  | none => simp [invalidate]
  | some k => exact le_trans (eraseKey_length_le s.cache k) hle

theorem insertAll_split (l1 l2 : List (K × V × ℚ)) : ∀ (s : CacheState K V),
    insertAll s (l1 ++ l2) = insertAll (insertAll s l1) l2 := by
  induction l1 with
  | nil => intro s; rfl
  | cons e rest ih =>
    intro s
    obtain ⟨k, v, t⟩ := e
    simp only [List.cons_append, insertAll]
    exact ih _

theorem insertAll_no_evict (new : List (K × V × ℚ)) : ∀ (s : CacheState K V),
    (∀ k, k ∈ new.map (·.1) → ¬ k ∈ s.cache.map (·.1)) →
    (new.map (·.1)).Nodup →
    s.cache.length + new.length ≤ s.maxSize →
    (insertAll s new).cache = s.cache ++ new ∧
    (insertAll s new).maxSize = s.maxSize ∧
    (insertAll s new).ttl = s.ttl := by
  induction new with
  | nil => intro s _ _ _; simp [insertAll]
  | cons e rest ih =>
    intro s hdisj hnodup hlen
    obtain ⟨k, v, t⟩ := e
    have hknot : ¬ k ∈ s.cache.map (·.1) :=
      hdisj k (by simp)
    have hlook : lookup s.cache k = none := lookup_eq_none_of_not_mem hknot
    have hset : setKey s.cache k (v, t) = s.cache ++ [(k, v, t)] :=
      setKey_append_of_not_mem (v, t) hknot
    have hnoover : ¬ s.maxSize < (s.cache ++ [(k, v, t)]).length := by
      simp only [List.length_append, List.length_cons, List.length_nil]
      simp only [List.length_cons] at hlen
      omega
    have hstep : (get_or_set (E := Unit) s k t t (Except.ok v)).2 =
        { s with cache := s.cache ++ [(k, v, t)], misses := s.misses + 1 } := by
      simp only [get_or_set, hlook, missPath, hset, if_neg hnoover]
    simp only [insertAll, hstep]
    have hres := ih { s with cache := s.cache ++ [(k, v, t)], misses := s.misses + 1 }
      (by
        intro k2 hk2 hmem
        simp only [List.map_append, List.map_cons, List.map_nil, List.mem_append,
          List.mem_cons, List.not_mem_nil, or_false] at hmem
        rcases hmem with hmem | hmem
        · exact hdisj k2 (by simp [hk2]) hmem
        · simp only [List.map_cons, List.nodup_cons] at hnodup
          rw [hmem] at hk2
          exact hnodup.1 hk2)
      (by
        simp only [List.map_cons, List.nodup_cons] at hnodup
        exact hnodup.2)
      (by
        simp only [List.length_append, List.length_cons, List.length_nil]
        simp only [List.length_cons] at hlen
        omega)
    refine ⟨?_, hres.2.1, hres.2.2⟩
    rw [hres.1, List.append_assoc]
    rfl

theorem evictOldest_of_sorted {l : List (K × V × ℚ)}
    (hsorted : List.Pairwise (fun a b : K × V × ℚ => a.2.2 ≤ b.2.2) l)
    (hne : l ≠ []) : evictOldest l = l.tail := by
  cases l with
  | nil => exact absurd rfl hne
  | cons first rest =>
    obtain ⟨fk, fv, ft⟩ := first
    rw [evictOldest, oldestEntry_head_of_sorted (fk, fv, ft) rest hsorted]
    simp [eraseKey]

theorem insertAll_cap_plus_one (entries : List (K × V × ℚ)) (cap : Nat) (ttl : ℚ)
    (hlen : entries.length = cap + 1)
    (hnodup : (entries.map (·.1)).Nodup)
    (hsorted : List.Pairwise (fun a b : K × V × ℚ => a.2.2 ≤ b.2.2) entries) :
    (insertAll (emptyCache cap ttl : CacheState K V) entries).cache = entries.tail := by
  rcases List.eq_nil_or_concat entries with hnil | ⟨init, lastE, rfl⟩
  · rw [hnil] at hlen
    simp at hlen
  · obtain ⟨k, v, t⟩ := lastE
    rw [List.concat_eq_append] at hlen hnodup hsorted ⊢
    have hinitlen : init.length = cap := by
      simp only [List.length_append, List.length_cons, List.length_nil] at hlen
      omega
    have hnd := hnodup
    rw [List.map_append, List.nodup_append] at hnd
    have hknot : ¬ k ∈ init.map (·.1) := by
      intro hmem
      exact hnd.2.2 hmem (by simp)
    have h1 := insertAll_no_evict init (emptyCache cap ttl : CacheState K V)
      (by intro k2 _ hmem; simp [emptyCache] at hmem)
      hnd.1
      (by simp [emptyCache, hinitlen])
    have hc1 : (insertAll (emptyCache cap ttl : CacheState K V) init).cache = init := by
      rw [h1.1]
      simp [emptyCache]
    have hm1 : (insertAll (emptyCache cap ttl : CacheState K V) init).maxSize = cap := by
      rw [h1.2.1]
      rfl
    rw [insertAll_split]
    simp only [insertAll]
    have hlook : lookup (insertAll (emptyCache cap ttl : CacheState K V) init).cache k = none := by
      rw [hc1]
      exact lookup_eq_none_of_not_mem hknot
    have hset : setKey (insertAll (emptyCache cap ttl : CacheState K V) init).cache k (v, t) =
        init ++ [(k, v, t)] := by
      rw [hc1]
      exact setKey_append_of_not_mem (v, t) hknot
    have hover : (insertAll (emptyCache cap ttl : CacheState K V) init).maxSize <
        (init ++ [(k, v, t)]).length := by
      rw [hm1]
      simp [hinitlen]
    have hne : init ++ [(k, v, t)] ≠ [] := by simp
    simp only [get_or_set, hlook, missPath, hset, if_pos hover]
    exact evictOldest_of_sorted hsorted hne

theorem purge_sorted {W now : ℚ} : ∀ {q : List ℚ}, List.Pairwise (· ≤ ·) q →
    purge W now q = q.filter (fun s => decide (now - s ≤ W)) := by
  intro q
  induction q with
  | nil => intro _; rfl
  | cons t rest ih =>
    intro h
    have hts : ∀ x ∈ rest, t ≤ x := (List.pairwise_cons.mp h).1
    have hrest := (List.pairwise_cons.mp h).2
    by_cases hd : W < now - t
    · have hnotle : ¬ now - t ≤ W := not_le.mpr hd
      simp only [purge, List.dropWhile_cons, decide_eq_true_eq, if_pos hd,
        List.filter_cons, decide_eq_true_eq]
      rw [if_neg hnotle]
      exact ih hrest
    · have hle : now - t ≤ W := not_lt.mp hd
      have hrest_all : ∀ x ∈ rest, decide (now - x ≤ W) = true := by
        intro x hx
        have h1 : t ≤ x := hts x hx
        simp only [decide_eq_true_eq]
        linarith
      simp only [purge, List.dropWhile_cons, decide_eq_true_eq,
        List.filter_cons, decide_eq_true_eq]
      rw [if_neg hd, if_pos hle, List.filter_eq_self.mpr hrest_all]

theorem runAdmissions_append (L : RateConfig) (p r : List ℚ) : ∀ q,
    runAdmissions L q (p ++ r) =
      (runAdmissions L q p).bind (fun qm => runAdmissions L qm r) := by
  induction p with
  | nil => intro q; rfl
  | cons now rest ih =>
    intro q
    simp only [List.cons_append, runAdmissions]
    cases hstep : acquireStep L now q with
    | some q2 => exact ih q2
    | none => rfl

theorem runAdmissions_queue (L : RateConfig) (hW : 0 ≤ L.window) :
    ∀ (p : List ℚ) (t : ℚ) (q qf : List ℚ),
      List.Pairwise (· ≤ ·) (q ++ (p ++ [t])) →
      runAdmissions L q (p ++ [t]) = some qf →
      qf = (q ++ (p ++ [t])).filter (fun s => decide (t - s ≤ L.window)) ∧
      qf.length ≤ L.maxRequests := by
  intro p
  induction p with
  | nil =>
    intro t q qf hsorted hrun
    simp only [List.nil_append] at hsorted ⊢
    have hq : List.Pairwise (α := ℚ) (· ≤ ·) q :=
      hsorted.sublist (List.sublist_append_left q [t])
    simp only [runAdmissions] at hrun
    cases hstep : acquireStep L t q with
    | none => rw [hstep] at hrun; exact absurd hrun (by simp [runAdmissions])
    | some q2 =>
      rw [hstep] at hrun
      simp only [runAdmissions, Option.some.injEq] at hrun
      subst hrun
      simp only [acquireStep] at hstep
      by_cases hlt : (purge L.window t q).length < L.maxRequests
      · rw [if_pos hlt] at hstep
        have hq2 : q2 = purge L.window t q ++ [t] := ((Option.some.injEq _ _).mp hstep).symm
        subst hq2
        rw [purge_sorted hq]
        constructor
        · rw [List.filter_append]
          have hkeep : List.filter (fun s => decide (t - s ≤ L.window)) [t] = [t] := by
            have htt : decide (t - t ≤ L.window) = true := by
              simp only [decide_eq_true_eq]
              rw [sub_self]
              exact hW
            simp only [List.filter_cons, List.filter_nil, htt, if_true]
          rw [hkeep]
        · rw [purge_sorted hq] at hlt
          simp only [List.length_append, List.length_cons, List.length_nil]
          omega
      · rw [if_neg hlt] at hstep
        exact absurd hstep (by simp)
  | cons x p ih =>
    intro t q qf hsorted hrun
    simp only [List.cons_append, runAdmissions] at hrun
    have hq : List.Pairwise (α := ℚ) (· ≤ ·) q :=
      hsorted.sublist (List.sublist_append_left q _)
    rcases List.pairwise_append.mp hsorted with ⟨_, hxs, hcross⟩
    rcases List.pairwise_cons.mp hxs with ⟨hx_all, hp⟩
    cases hstep : acquireStep L x q with
    | none => rw [hstep] at hrun; exact absurd hrun (by simp)
    | some q2 =>
      rw [hstep] at hrun
      simp only [acquireStep] at hstep
      by_cases hlt : (purge L.window x q).length < L.maxRequests
      · rw [if_pos hlt] at hstep
        have hq2 : q2 = purge L.window x q ++ [x] := ((Option.some.injEq _ _).mp hstep).symm
        subst hq2
        rw [purge_sorted hq] at hrun
        have hsorted2 : List.Pairwise (α := ℚ) (· ≤ ·)
            ((q.filter (fun s => decide (x - s ≤ L.window)) ++ [x]) ++ (p ++ [t])) := by
          rw [List.pairwise_append]
          refine ⟨?_, hp, ?_⟩
          · rw [List.pairwise_append]
            refine ⟨List.Pairwise.filter _ hq, List.pairwise_singleton _ _, ?_⟩
            intro a ha b hb
            rw [List.mem_singleton] at hb
            rw [hb]
            exact hcross a (List.mem_of_mem_filter ha) x (List.mem_cons_self x _)
          · intro a ha b hb
            rcases List.mem_append.mp ha with ha | ha
            · exact hcross a (List.mem_of_mem_filter ha) b (List.mem_cons_of_mem x hb)
            · rw [List.mem_singleton] at ha
              rw [ha]
              exact hx_all b hb
        have hres := ih t _ qf hsorted2 hrun
        refine ⟨?_, hres.2⟩
        rw [hres.1]
        have hxt : x ≤ t := hx_all t (List.mem_append.mpr (Or.inr (List.mem_singleton.mpr rfl)))
        have hff : ∀ a ∈ q,
            (decide (t - a ≤ L.window) && decide (x - a ≤ L.window)) =
              decide (t - a ≤ L.window) := by
          intro a _
          by_cases hta : t - a ≤ L.window
          · have hxa : x - a ≤ L.window := by linarith
            simp [hta, hxa]
          · simp [hta]
        calc List.filter (fun s => decide (t - s ≤ L.window))
              ((q.filter (fun s => decide (x - s ≤ L.window)) ++ [x]) ++ (p ++ [t]))
            = List.filter (fun s => decide (t - s ≤ L.window))
                (q.filter (fun s => decide (x - s ≤ L.window))) ++
              List.filter (fun s => decide (t - s ≤ L.window)) ([x] ++ (p ++ [t])) := by
              rw [List.append_assoc, List.filter_append]
          _ = List.filter (fun s => decide (t - s ≤ L.window)) q ++
              List.filter (fun s => decide (t - s ≤ L.window)) ([x] ++ (p ++ [t])) := by
              rw [List.filter_filter, List.filter_congr hff]
          _ = List.filter (fun s => decide (t - s ≤ L.window)) (q ++ (x :: (p ++ [t]))) := by
              conv_rhs => rw [List.filter_append]
              rw [← List.filter_append, List.filter_append, List.singleton_append]
      · rw [if_neg hlt] at hstep
        exact absurd hstep (by simp)

theorem sorted_dropWhile_gt (c : ℚ) : ∀ (l : List ℚ), List.Pairwise (· ≤ ·) l →
    ∀ x ∈ l.dropWhile (fun y => decide (y ≤ c)), c < x := by
  intro l
  induction l with
  | nil => intro _ x hx; simp at hx
  | cons y l ih =>
    intro h x hx
    rcases List.pairwise_cons.mp h with ⟨hy_all, hl⟩
    by_cases hy : y ≤ c
    · rw [List.dropWhile_cons] at hx
      rw [if_pos (by simpa using hy)] at hx
      exact ih hl x hx
    · rw [List.dropWhile_cons] at hx
      rw [if_neg (by simpa using hy)] at hx
      rcases List.mem_cons.mp hx with hx | hx
      · subst hx
        exact not_le.mp hy
      · have := hy_all x hx
        have := not_le.mp hy
        linarith

theorem countP_window_le (L : RateConfig) (hW : 0 ≤ L.window) (ts qf : List ℚ)
    (hsorted : List.Pairwise (· ≤ ·) ts)
    (hrun : runAdmissions L [] ts = some qf) (a : ℚ) :
    ts.countP (fun x => decide (a ≤ x ∧ x ≤ a + L.window)) ≤ L.maxRequests := by
  have hsplit := List.takeWhile_append_dropWhile
    (p := fun x => decide (x ≤ a + L.window)) (l := ts)
  have hdropzero : (ts.dropWhile (fun x => decide (x ≤ a + L.window))).countP
      (fun x => decide (a ≤ x ∧ x ≤ a + L.window)) = 0 := by
    rw [List.countP_eq_zero]
    intro x hx
    have := sorted_dropWhile_gt (a + L.window) ts hsorted x hx
    simp only [decide_eq_true_eq, not_and]
    intro _
    linarith
  have hcount : ts.countP (fun x => decide (a ≤ x ∧ x ≤ a + L.window)) =
      (ts.takeWhile (fun x => decide (x ≤ a + L.window))).countP
        (fun x => decide (a ≤ x ∧ x ≤ a + L.window)) := by
    conv_lhs => rw [← hsplit]
    rw [List.countP_append, hdropzero]
    omega
  rw [hcount]
  rcases List.eq_nil_or_concat (ts.takeWhile (fun x => decide (x ≤ a + L.window)))
    with hpnil | ⟨p0, tl, hp⟩
  · rw [hpnil]
    simp
  · rw [List.concat_eq_append] at hp
    have hprefix : runAdmissions L [] ((p0 ++ [tl]) ++
        ts.dropWhile (fun x => decide (x ≤ a + L.window))) = some qf := by
      rw [← hp, hsplit]
      exact hrun
    rw [runAdmissions_append] at hprefix
    cases hqm : runAdmissions L [] (p0 ++ [tl]) with
    | none => rw [hqm] at hprefix; exact absurd hprefix (by simp)
    | some qm =>
      have hsorted_p : List.Pairwise (α := ℚ) (· ≤ ·) (([] : List ℚ) ++ (p0 ++ [tl])) := by
        rw [List.nil_append, ← hp]
        exact hsorted.sublist (List.takeWhile_sublist _)
      have hres := runAdmissions_queue L hW p0 tl [] qm hsorted_p hqm
      have htl_le : tl ≤ a + L.window := by
        have : tl ∈ ts.takeWhile (fun x => decide (x ≤ a + L.window)) := by
          rw [hp]
          exact List.mem_append.mpr (Or.inr (List.mem_singleton.mpr rfl))
        simpa using List.mem_takeWhile_imp this
      rw [hp]
      have hmono : (p0 ++ [tl]).countP (fun x => decide (a ≤ x ∧ x ≤ a + L.window)) ≤
          (p0 ++ [tl]).countP (fun s => decide (tl - s ≤ L.window)) := by
        refine List.countP_mono_left ?_
        intro x _ hx
        simp only [decide_eq_true_eq] at hx ⊢
        linarith [hx.1, hx.2]
      refine le_trans hmono ?_
      rw [List.countP_eq_length_filter]
      have : (p0 ++ [tl]).filter (fun s => decide (tl - s ≤ L.window)) = qm := by
        rw [hres.1, List.nil_append]
      rw [this]
      exact hres.2

/-! ### Claim theorems -/

unseal Rat.sub Rat.add Rat.mul Rat.inv in
/-- Claim C1.  The claim says that a cache hit updates the entry's recency
marker, so that an entry just read on a hit is never the one evicted in
favor of entries neither inserted nor read since.  The code contradicts
this (and its own "Least Recently Used" docstring): a hit leaves
`created_at` untouched, and eviction picks the oldest `created_at`.
Concretely, with capacity 2: insert key 1 at t=0, insert key 2 at t=1,
read key 1 on a hit at t=2, insert key 3 at t=3.  The hit returns the
cached value 10, yet the subsequent insertion evicts key 1 — the entry
just read — while key 2, neither inserted nor read since t=1, survives. -/
theorem c1_hit_recency_code_bug :
    (get_or_set (E := Nat)
        (get_or_set (E := Nat)
          (get_or_set (E := Nat) (emptyCache 2 100 : CacheState Nat Nat)
            1 0 0 (Except.ok 10)).2
          2 1 1 (Except.ok 20)).2
        1 2 2 (Except.ok 99)).1 = Except.ok 10 ∧
    ((get_or_set (E := Nat)
        (get_or_set (E := Nat)
          (get_or_set (E := Nat)
            (get_or_set (E := Nat) (emptyCache 2 100 : CacheState Nat Nat)
              1 0 0 (Except.ok 10)).2
            2 1 1 (Except.ok 20)).2
          1 2 2 (Except.ok 99)).2
        3 3 3 (Except.ok 30)).2).cache.map Prod.fst = [2, 3] := by
  decide

unseal Rat.sub Rat.add Rat.mul Rat.inv in
/-- Claim C2, counterexample.  With `max_requests = 1`, `window = 10` and
the deque holding the single timestamp 0, a lone caller that starts at
t = 0 is not admitted by a re-check at t = 10 — exactly
`window_duration` after the oldest timestamp it was blocked behind — nor
by any number of re-checks at t = 10, because the purge keeps timestamps
with `now - t <= window` (strict `>` in the while loop) and the sleep
time is then 0.  It is admitted only strictly later, e.g. at t = 21/2.
So "completes no later than `window_duration` after the oldest
timestamp" fails as stated. -/
theorem c2_admission_at_deadline_fails :
    acquireRun ⟨1, 10⟩ [0] [0, 10] = none ∧
    acquireRun ⟨1, 10⟩ [0] [0, 10, 10, 10] = none ∧
    acquireRun ⟨1, 10⟩ [0] [0, 10, 21/2] = some (21/2, [21/2]) := by
  decide

/-- Claim C2 as amended: a lone caller blocked behind oldest timestamp
`t0` is admitted at the first re-check at any time strictly later than
`t0 + window_duration` (and its timestamp is recorded), so `acquire()`
terminates for a lone caller whose clock readings strictly advance. -/
theorem c2_amended_admitted_after_window (L : RateConfig) (t0 : ℚ)
    (rest : List ℚ) (t : ℚ)
    (hlen : (t0 :: rest).length ≤ L.maxRequests)
    (ht : L.window < t - t0) :
    acquireRun L (t0 :: rest) [t] =
      some (t, purge L.window t rest ++ [t]) := by
  have hpurge : purge L.window t (t0 :: rest) = purge L.window t rest := by
    simp [purge, List.dropWhile, ht]
  have hlen2 : (purge L.window t rest).length < L.maxRequests := by
    have hsub := List.Sublist.length_le
      (List.dropWhile_sublist (fun s => decide (L.window < t - s)) (l := rest))
    simp only [purge]
    simp only [List.length_cons] at hlen
    omega
  simp [acquireRun, acquireStep, hpurge, hlen2]

/-- Claim C2 amended, witness: with `max_requests = 1`, `window = 10` and
the deque `[0]`, a re-check at t = 11 admits the caller. -/
theorem c2_amended_witness :
    ([(0 : ℚ)].length ≤ (1 : Nat) ∧ (10 : ℚ) < 11 - 0) ∧
    acquireRun ⟨1, 10⟩ [0] [11] = some (11, purge 10 11 [] ++ [11]) :=
  ⟨⟨by decide, by norm_num⟩,
    c2_amended_admitted_after_window ⟨1, 10⟩ 0 [] 11 (by decide) (by norm_num)⟩

/-- Claim C3: after every completed `acquire()` (each admission in a
sorted sequence of admission times), every timestamp retained in the
deque at that completion satisfies `now - timestamp <= window_duration`
and the deque holds at most `max_requests` timestamps; consequently no
closed sliding window of length `window_duration` contains more than
`max_requests` admission timestamps. -/
theorem c3_sliding_window (L : RateConfig) (ts qf : List ℚ)
    (hW : 0 ≤ L.window)
    (hsorted : List.Pairwise (· ≤ ·) ts)
    (hrun : runAdmissions L [] ts = some qf) :
    (∀ p t r, ts = p ++ t :: r →
      ∃ qm, runAdmissions L [] (p ++ [t]) = some qm ∧
        qm.length ≤ L.maxRequests ∧ ∀ s ∈ qm, t - s ≤ L.window) ∧
    (∀ a : ℚ, ts.countP (fun x => decide (a ≤ x ∧ x ≤ a + L.window)) ≤ L.maxRequests) := by
  constructor
  · intro p t r hts
    have hts2 : ts = (p ++ [t]) ++ r := by
      rw [hts]
      simp
    rw [hts2, runAdmissions_append] at hrun
    cases hqm : runAdmissions L [] (p ++ [t]) with
    | none =>
      rw [hqm] at hrun
      exact absurd hrun (by simp)
    | some qm =>
      have hsorted2 : List.Pairwise (α := ℚ) (· ≤ ·) (([] : List ℚ) ++ (p ++ [t])) := by
        rw [List.nil_append]
        have hs2 : List.Pairwise (α := ℚ) (· ≤ ·) ((p ++ [t]) ++ r) := hts2 ▸ hsorted
        exact hs2.sublist (List.sublist_append_left _ _)
      have hres := runAdmissions_queue L hW p t [] qm hsorted2 hqm
      refine ⟨qm, rfl, hres.2, ?_⟩
      intro s hsm
      rw [hres.1, List.nil_append] at hsm
      simpa using List.of_mem_filter hsm
  · intro a
    exact countP_window_le L hW ts qf hsorted hrun a

unseal Rat.sub Rat.add Rat.mul Rat.inv in
/-- Claim C3, witness: three admissions at times 0, 1, 11 under
`max_requests = 2`, `window = 10`; the run is realizable and no window of
length 10 contains more than 2 admissions. -/
theorem c3_witness :
    ((0 : ℚ) ≤ 10 ∧ List.Pairwise (· ≤ ·) ([0, 1, 11] : List ℚ) ∧
      runAdmissions ⟨2, 10⟩ [] [0, 1, 11] = some [1, 11]) ∧
    List.countP (fun x => decide ((0 : ℚ) ≤ x ∧ x ≤ 0 + 10)) [0, 1, 11] ≤ 2 :=
  ⟨⟨by norm_num, by decide, by decide⟩,
    (c3_sliding_window ⟨2, 10⟩ [0, 1, 11] [1, 11] (by norm_num) (by decide)
      (by decide)).2 0⟩

/-- Claim C4: an operation that always fails with a retryable error under
`max_attempts = N >= 1` is invoked exactly N times, and the wrapper
re-raises the original error of the last attempt itself (the `raise` on
`attempt == max_attempts - 1` re-raises the caught exception, no
synthetic wrapper). -/
theorem c4_retry_exhaustion (cfg : RetryConfig) (retryable : E → Bool)
    (op : Nat → Except E V) (err : Nat → E)
    (hop : ∀ i, op i = Except.error (err i))
    (hr : ∀ i, retryable (err i) = true)
    (hN : 1 ≤ cfg.maxAttempts) :
    (async_retry cfg retryable op).result =
      some (Except.error (err (cfg.maxAttempts - 1))) ∧
    (async_retry cfg retryable op).attempts = cfg.maxAttempts := by
  have h := retryAux_all_fail cfg retryable op err hop hr cfg.maxAttempts 0 hN
  rw [async_retry, h]
  exact ⟨by rw [Nat.zero_add], rfl⟩

/-- Claim C4, witness: three attempts at `max_attempts = 3`, the error of
attempt index 2 re-raised. -/
theorem c4_witness :
    ((∀ i : Nat, (fun j => (Except.error j : Except Nat Nat)) i =
        Except.error i) ∧ 1 ≤ 3) ∧
    (async_retry ⟨3, 2, 1, 60⟩ (fun _ => true)
        (fun i => (Except.error i : Except Nat Nat))).result =
      some (Except.error 2) ∧
    (async_retry ⟨3, 2, 1, 60⟩ (fun _ => true)
        (fun i => (Except.error i : Except Nat Nat))).attempts = 3 :=
  ⟨⟨fun _ => rfl, by decide⟩,
    c4_retry_exhaustion ⟨3, 2, 1, 60⟩ (fun _ => true)
      (fun i => (Except.error i : Except Nat Nat)) (fun i => i)
      (fun _ => rfl) (fun _ => rfl) (by decide)⟩

/-- Claim C5: an operation failing retryably `k` times then succeeding,
with `max_attempts > k`, returns the successful value after `k + 1`
invocations; the successive sleeps are exactly
`min(initial_delay * backoff_factor^i, max_delay)` for `i = 0..k-1`
(equivalently `i = 1..k` with exponent `i - 1`), so the total slept
delay is their sum; when `initial_delay <= max_delay` the first retry
waits exactly `initial_delay`, and no single delay exceeds `max_delay`. -/
theorem c5_retry_backoff (cfg : RetryConfig) (retryable : E → Bool)
    (op : Nat → Except E V) (err : Nat → E) (v : V) (k : Nat)
    (hop : ∀ i, i < k → op i = Except.error (err i))
    (hr : ∀ i, i < k → retryable (err i) = true)
    (hok : op k = Except.ok v)
    (hk : k < cfg.maxAttempts) :
    async_retry cfg retryable op =
      ⟨some (Except.ok v), k + 1, (List.range k).map (delayFor cfg)⟩ ∧
    ((List.range k).map (delayFor cfg)).sum =
      ∑ i ∈ Finset.range k,
        min (cfg.initialDelay * cfg.backoffFactor ^ i) cfg.maxDelay ∧
    (cfg.initialDelay ≤ cfg.maxDelay → delayFor cfg 0 = cfg.initialDelay) ∧
    (∀ i, delayFor cfg i ≤ cfg.maxDelay) := by
  refine ⟨?_, ?_, ?_, ?_⟩
  · have h := retryAux_fail_then_ok cfg retryable op err v k 0
      (fun i hi => by simpa using hop i hi)
      (fun i hi => by simpa using hr i hi)
      (by simpa using hok) (by omega)
    rw [async_retry, show cfg.maxAttempts = cfg.maxAttempts - 0 by omega, h]
    simp
  · rw [listRangeMapSum]
    rfl
  · intro hle
    simp [delayFor, hle]
  · intro i
    exact min_le_right _ _

/-- Claim C5, witness: fails at attempts 0 and 1, succeeds at attempt 2;
three invocations, sleeps `[1, 2]`, total 3. -/
theorem c5_witness :
    ((∀ i : Nat, i < 2 →
        (fun j => if j < 2 then Except.error j else (Except.ok 42 : Except Nat Nat)) i =
          Except.error i) ∧ 2 < 3) ∧
    async_retry ⟨3, 2, 1, 60⟩ (fun _ => true)
        (fun j => if j < 2 then Except.error j else (Except.ok 42 : Except Nat Nat)) =
      ⟨some (Except.ok 42), 3, (List.range 2).map (delayFor ⟨3, 2, 1, 60⟩)⟩ :=
  ⟨⟨fun i hi => by simp [hi], by decide⟩,
    (c5_retry_backoff ⟨3, 2, 1, 60⟩ (fun _ => true)
      (fun j => if j < 2 then Except.error j else (Except.ok 42 : Except Nat Nat))
      (fun i => i) 42 2
      (fun i hi => by simp [hi]) (fun _ _ => rfl) (by simp) (by decide)).1⟩

/-- Claim C6: the `async_retry` decorator and the `RetryContext` context
manager (driven by the canonical retry loop), configured identically and
run against the same sequence of operation outcomes, produce the same
final outcome, the same number of invocations, and the same sleeps
before each retry — for every configuration with at least one attempt. -/
theorem c6_decorator_eq_context (cfg : RetryConfig) (retryable : E → Bool)
    (op : Nat → Except E V) (hN : 1 ≤ cfg.maxAttempts) :
    async_retry cfg retryable op = retryCtxRun cfg retryable op := by
  rw [async_retry, retryCtxRun]
  exact retryAux_eq_ctxAux cfg retryable op cfg.maxAttempts 0 (Nat.zero_add _) hN

/-- Claim C6, witness: a concrete config and outcome sequence on which
the two entry points coincide. -/
theorem c6_witness :
    1 ≤ 2 ∧
    async_retry ⟨2, 2, 1, 60⟩ (fun e => e % 2 = 0)
        (fun i => (Except.error i : Except Nat Nat)) =
      retryCtxRun ⟨2, 2, 1, 60⟩ (fun e => e % 2 = 0)
        (fun i => (Except.error i : Except Nat Nat)) :=
  ⟨by decide,
    c6_decorator_eq_context ⟨2, 2, 1, 60⟩ (fun e => e % 2 = 0)
      (fun i => (Except.error i : Except Nat Nat)) (by decide)⟩

/-- Claim C8: for an entry inserted at `t0` with TTL `T`, a lookup at any
`t` with `t0 <= t < t0 + T` is a hit returning the cached value (the only
state change is the hit counter); a lookup at any `t >= t0 + T`, the
boundary included, is a miss: the wrapped outcome of `compute_fn` becomes
the result of the call (the function is invoked again), and the expired
binding is deleted (observed on the error path, where no re-insertion
masks it). -/
theorem c8_ttl_boundary (s : CacheState K V) (k : K) (v : V)
    (t0 t t2 : ℚ) (compute : Except E V) (e : E)
    (hk : lookup s.cache k = some (v, t0)) :
    (t0 ≤ t → t < t0 + s.ttl →
      get_or_set s k t t2 compute =
        (Except.ok v, { s with hits := s.hits + 1 })) ∧
    (t0 + s.ttl ≤ t →
      (get_or_set s k t t2 compute).1 = compute ∧
      ((get_or_set s k t t2 (Except.error e)).2).cache = eraseKey s.cache k) := by
  constructor
  · intro _ h2
    have hfresh : t - t0 < s.ttl := by linarith
    simp [get_or_set, hk, hfresh]
  · intro hexp
    have hstale : ¬ t - t0 < s.ttl := by linarith
    refine ⟨?_, ?_⟩
    · simp only [get_or_set, hk, if_neg hstale]
      cases compute with
      | ok w => simp [missPath]
      | error e2 => simp [missPath]
    · simp [get_or_set, hk, if_neg hstale, missPath]

/-- Claim C8, witness: entry `(5, 7)` inserted at t0 = 0 with TTL 10 in a
cache of capacity 2: a lookup at t = 3 is a hit returning 7 and bumps the
hit counter only. -/
theorem c8_witness :
    lookup ([(5, 7, 0)] : List (Nat × Nat × ℚ)) 5 = some (7, 0) ∧
    get_or_set (⟨2, 10, [(5, 7, 0)], 0, 0⟩ : CacheState Nat Nat) 5 3 3
        (Except.ok (8 : Nat) : Except Nat Nat) =
      (Except.ok 7, (⟨2, 10, [(5, 7, 0)], 1, 0⟩ : CacheState Nat Nat)) :=
  ⟨by decide,
    (c8_ttl_boundary (⟨2, 10, [(5, 7, 0)], 0, 0⟩ : CacheState Nat Nat) 5 7 0 3 3
      (Except.ok 8) 1 (by decide)).1 (by norm_num) (by norm_num)⟩

/-- Claim C9: on a miss (key absent or present-but-expired at lookup time
`t1`), when `compute_fn` fails with `e`, `get_or_set` propagates exactly
that `e` and inserts nothing: the whole state change is the miss counter
increment and the deletion of the expired binding for the key if one
existed (deleting a binding the key does not have is a no-op).  The
embedding is a total function, so cache bookkeeping itself never raises,
and by `c8_ttl_boundary` the hit path returns the cached value. -/
theorem c9_error_propagation (s : CacheState K V) (k : K) (t1 t2 : ℚ) (e : E)
    (h : (lookup s.cache k).all (fun p => decide (s.ttl ≤ t1 - p.2)) = true) :
    get_or_set s k t1 t2 (Except.error e) =
      (Except.error e,
        { s with cache := eraseKey s.cache k, misses := s.misses + 1 }) := by
  cases hk : lookup s.cache k with
  | none =>
    rw [eraseKey_of_lookup_none hk]
    simp [get_or_set, hk, missPath]
  | some p =>
    obtain ⟨v, ct⟩ := p
    rw [hk] at h
    simp only [Option.all_some, decide_eq_true_eq] at h
    have hstale : ¬ t1 - ct < s.ttl := not_lt.mpr h
    simp [get_or_set, hk, if_neg hstale, missPath]

/-- Claim C7: the cache never exceeds its capacity — after `get_or_set`
(insertion with possible eviction) and after `invalidate`, the number of
entries is at most `max_size` whenever it was before; and inserting
`capacity + 1` distinct keys (at nondecreasing times, no reads) into an
initially empty cache leaves exactly `capacity` entries, the
least-recently-touched key — the first inserted, never read since —
being the one missing (the final cache is the insertion list minus its
head). -/
theorem c7_capacity_invariant (s : CacheState K V) (key : K) (t1 t2 : ℚ)
    (c : Except E V) (okey : Option K)
    (entries : List (K × V × ℚ)) (cap : Nat) (ttl : ℚ)
    (hle : s.cache.length ≤ s.maxSize)
    (hlen : entries.length = cap + 1)
    (hnodup : (entries.map (·.1)).Nodup)
    (hsorted : List.Pairwise (fun a b : K × V × ℚ => a.2.2 ≤ b.2.2) entries) :
    ((get_or_set s key t1 t2 c).2).cache.length ≤ s.maxSize ∧
    (invalidate s okey).cache.length ≤ s.maxSize ∧
    (insertAll (emptyCache cap ttl : CacheState K V) entries).cache = entries.tail ∧
    (insertAll (emptyCache cap ttl : CacheState K V) entries).cache.length = cap :=
  ⟨get_or_set_capacity s key t1 t2 c hle,
    invalidate_capacity s okey hle,
    insertAll_cap_plus_one entries cap ttl hlen hnodup hsorted,
    by
      rw [insertAll_cap_plus_one entries cap ttl hlen hnodup hsorted]
      cases entries with
      | nil => simp at hlen
      | cons e rest =>
        simp only [List.tail_cons]
        simp only [List.length_cons] at hlen
        omega⟩

unseal Rat.sub Rat.add Rat.mul Rat.inv in
/-- Claim C7, witness: a cache holding one of two slots stays within
capacity after an insertion and an invalidation, and inserting three
distinct keys into an empty two-slot cache leaves keys 2 and 3, key 1
missing. -/
theorem c7_witness :
    (([(1, 10, 0), (2, 20, 1), (3, 30, 2)] : List (Nat × Nat × ℚ)).length = 2 + 1 ∧
      (([(1, 10, 0), (2, 20, 1), (3, 30, 2)] : List (Nat × Nat × ℚ)).map (·.1)).Nodup ∧
      List.Pairwise (fun a b : Nat × Nat × ℚ => a.2.2 ≤ b.2.2)
        ([(1, 10, 0), (2, 20, 1), (3, 30, 2)] : List (Nat × Nat × ℚ))) ∧
    ((get_or_set (⟨2, 10, [(7, 7, 0)], 0, 0⟩ : CacheState Nat Nat) 9 1 1
        (Except.ok (5 : Nat) : Except Nat Nat)).2).cache.length ≤ 2 ∧
    (invalidate (⟨2, 10, [(7, 7, 0)], 0, 0⟩ : CacheState Nat Nat) (some 7)).cache.length ≤ 2 ∧
    (insertAll (emptyCache 2 5 : CacheState Nat Nat)
        [(1, 10, 0), (2, 20, 1), (3, 30, 2)]).cache =
      ([(1, 10, 0), (2, 20, 1), (3, 30, 2)] : List (Nat × Nat × ℚ)).tail ∧
    (insertAll (emptyCache 2 5 : CacheState Nat Nat)
        [(1, 10, 0), (2, 20, 1), (3, 30, 2)]).cache.length = 2 :=
  ⟨⟨by decide, by decide, by decide⟩,
    c7_capacity_invariant (⟨2, 10, [(7, 7, 0)], 0, 0⟩ : CacheState Nat Nat) 9 1 1
      (Except.ok 5) (some 7) [(1, 10, 0), (2, 20, 1), (3, 30, 2)] 2 5
      (by decide) (by decide) (by decide) (by decide)⟩

unseal Rat.sub Rat.add Rat.mul Rat.inv in
/-- Claim C9, witness: key 5 expired (inserted at 0, TTL 10, lookup at
t = 12); a failing compute propagates error 3, the expired binding is
removed, only the miss counter changes. -/
theorem c9_witness :
    ((lookup ([(5, 7, 0)] : List (Nat × Nat × ℚ)) 5).all
        (fun p => decide ((10 : ℚ) ≤ 12 - p.2)) = true) ∧
    get_or_set (⟨2, 10, [(5, 7, 0)], 0, 0⟩ : CacheState Nat Nat) 5 12 12
        (Except.error (3 : Nat)) =
      (Except.error 3, (⟨2, 10, [], 0, 1⟩ : CacheState Nat Nat)) :=
  ⟨by decide,
    c9_error_propagation (⟨2, 10, [(5, 7, 0)], 0, 0⟩ : CacheState Nat Nat)
      5 12 12 3 (by decide)⟩

unseal Rat.sub Rat.add Rat.mul Rat.inv in
/-- `round(0, 2) = 0`. -/
theorem round2_zero : round2 0 = 0 := by decide

omit [DecidableEq K] in
/-- Claim C10: `get_stats` is total — the guarded division never divides
by zero — returning `hit_rate_percent = 0` when `hits + misses = 0` and
`round(hits / (hits + misses) * 100, 2)` otherwise, in a record whose
fields are exactly `size`, `max_size`, `hits`, `misses`,
`total_requests`, `hit_rate_percent`, `ttl_seconds`. -/
theorem c10_get_stats_total (s : CacheState K V) :
    get_stats s = some
      { size := s.cache.length
        max_size := s.maxSize
        hits := s.hits
        misses := s.misses
        total_requests := s.hits + s.misses
        hit_rate_percent :=
          if s.hits + s.misses = 0 then 0
          else round2 ((s.hits : ℚ) / ((s.hits : ℚ) + (s.misses : ℚ)) * 100)
        ttl_seconds := s.ttl } := by
  by_cases h : s.hits + s.misses = 0
  · simp [get_stats, h, round2_zero]
  · have hpos : 0 < s.hits + s.misses := Nat.pos_of_ne_zero h
    have hne : ((s.hits + s.misses : Nat) : ℚ) ≠ 0 := by
      exact_mod_cast h
    simp only [get_stats, pydiv, if_pos hpos, if_neg hne, if_neg h]
    simp only [Option.map_some', Option.some.injEq]
    congr 2
    push_cast
    ring_nf

end LudusMCP
